import Mathlib

/-!
Verification of the documentation-tree viewer (`DocView.vue`, the router and
the build manifest) of this repository.  The data model is the manifest node
shape `{ name, type: "directory" | "file", children? }` produced by the
build script; the operations are the viewer's `findItem`, `sortedChildren`,
`breadcrumbs` and `updateContent`, plus the environment base path from
`vite.config.ts`.
-/

namespace DocViewer

/-- A manifest node as emitted by the build script and consumed by the viewer:
`{ name: string, type: "directory" | "file", children?: Node[] }`.  The
`children` key is absent on file nodes, which we model with `Option`. -/
inductive Node where
  | mk (name : String) (type : String) (children : Option (List Node)) : Node

def Node.name : Node → String
  | .mk n _ _ => n

def Node.type : Node → String
  | .mk _ t _ => t

def Node.children : Node → Option (List Node)
  | .mk _ _ c => c

/-- The children array of a node, or `[]` when the key is absent. -/
def Node.childrenD (t : Node) : List Node := t.children.getD []

/-- `findItem` from `DocView.vue`: starting at `tree`, for each path segment
look up `current.children?.find(c => c.name === segment)`; return `null`
(here `none`) as soon as a segment has no matching child, else descend. -/
def findItem : List String → Node → Option Node
  | [], tree => some tree
  | segment :: rest, tree =>
    match tree.children.bind (List.find? (fun c => c.name == segment)) with
    | none => none
    | some child => findItem rest child

/-- A valid root-to-node walk in the manifest: each segment is exactly
(case-sensitively) the name of a child of the node reached so far. -/
inductive Walk : Node → List String → Node → Prop
  | nil (t : Node) : Walk t [] t
  | cons {t c r : Node} {s : String} {p : List String}
      (hmem : c ∈ t.childrenD) (hname : c.name = s) (hw : Walk c p r) :
      Walk t (s :: p) r

/-- Boolean no-duplicates check on a list of names. -/
def nodupBy (l : List String) : Bool := decide l.Nodup

/-- Every node of the forest has pairwise-distinct child names (the
manifest data-model invariant "names are unique among siblings"). -/
def forestNodup : List Node → Bool
  | [] => true
  | Node.mk _ _ none :: rest => forestNodup rest
  | Node.mk _ _ (some cs) :: rest =>
      nodupBy (cs.map Node.name) && forestNodup cs && forestNodup rest

/-- The whole manifest tree has pairwise-distinct sibling names. -/
def treeNodup (t : Node) : Bool :=
  match t with
  | .mk _ _ none => true
  | .mk _ _ (some cs) => nodupBy (cs.map Node.name) && forestNodup cs

/-- Resolution fails on a path: following the segments with the viewer's
child lookup, at some step the current node has no child whose name equals
the segment. -/
inductive ResolutionFails : Node → List String → Prop
  | here {t : Node} {s : String} {rest : List String}
      (h : ∀ c ∈ t.childrenD, c.name ≠ s) : ResolutionFails t (s :: rest)
  | there {t c : Node} {s : String} {rest : List String}
      (hstep : t.children.bind (List.find? (fun x => x.name == s)) = some c)
      (h : ResolutionFails c rest) : ResolutionFails t (s :: rest)

/-- The comparator passed to `Array.prototype.sort` inside `sortedChildren`:
a directory before a file, a file after a directory, otherwise the result of
`localeCompare` on the names.  The locale-aware `localeCompare` is a black
box here, passed in as `cmp` returning a negative, zero or positive value. -/
def childCompare (cmp : String → String → Int) (a b : Node) : Int :=
  if a.type = "directory" ∧ b.type = "file" then -1
  else if a.type = "file" ∧ b.type = "directory" then 1
  else cmp a.name b.name

/-- JS `Array.prototype.sort` with the `childCompare` comparator.  For a
consistent comparator the JS sort produces a stable arrangement in which
`a` precedes `b` whenever the comparator result is at most `0`; we model it
as insertion sort, which is stable and sorted. -/
def jsSortBy (cmp : String → String → Int) (cs : List Node) : List Node :=
  List.insertionSort (fun a b => childCompare cmp a b ≤ 0) cs

/-- `sortedChildren` from `DocView.vue`: `[]` when there is no current item
or the item has no children array; otherwise the spread copy
`[...children]` sorted with `childCompare`. -/
def sortedChildren (cmp : String → String → Int) (item : Option Node) : List Node :=
  match item with
  | none => []
  | some n =>
    match n.children with
    | none => []
    | some cs => jsSortBy cmp cs

/-- The children of the current item as `sortedChildren` sees them. -/
def itemChildrenD : Option Node → List Node
  | none => []
  | some n => n.childrenD

/-- State-passing embedding of `sortedChildren`: JS `sort` rearranges its
receiver array in place, but the source applies it to the spread copy
`[...item.value.children]`, so the node's own children array is left
untouched.  The second component is the item as the operation leaves it:
the node rebuilt around the children array the code did not sort. -/
def sortedChildrenSt (cmp : String → String → Int) (item : Option Node) :
    List Node × Option Node :=
  match item with
  | none => ([], none)
  | some n =>
    match n.children with
    | none => ([], some n)
    | some cs => (jsSortBy cmp cs, some (Node.mk n.name n.type (some cs)))

/-- State-passing embedding of `findItem`: the walk only reads `children`
and `name`, so the tree comes back as it went in. -/
def findItemSt (segs : List String) (tree : Node) : Option Node × Node :=
  (findItem segs tree, tree)

/-- One breadcrumb entry `{ name, path }`. -/
structure Crumb where
  name : String
  path : String

/-- The loop body of the `breadcrumbs` computed property: starting from the
accumulated `currentPath`, each segment appends `'/' + segment` and pushes
`{ name: segment, path: currentPath }`. -/
def breadcrumbsLoop : List String → String → List Crumb
  | [], _ => []
  | segment :: rest, currentPath =>
    let nextPath := currentPath ++ "/" ++ segment
    ⟨segment, nextPath⟩ :: breadcrumbsLoop rest nextPath

/-- `breadcrumbs` from `DocView.vue`, applied to the route's path segments. -/
def breadcrumbs (segs : List String) : List Crumb := breadcrumbsLoop segs ""

/-- Navigability of crumb `i` in the template: it renders as a router link
iff `index < breadcrumbs.length - 1`, and as plain current-location text
otherwise. -/
def crumbNavigable (bc : List Crumb) (i : Nat) : Bool :=
  decide (i < bc.length - 1)

/-- State-passing embedding of the breadcrumb derivation: it only reads the
route segments. -/
def breadcrumbsSt (segs : List String) : List Crumb × List String :=
  (breadcrumbs segs, segs)

/-- JS `Array.prototype.join('/')` on the path segments. -/
def joinSlash : List String → String
  | [] => ""
  | [s] => s
  | s :: rest => s ++ "/" ++ joinSlash rest

/-- The eventual outcome of a `fetch` call: a response carrying its `ok`
flag and body text, or a network error (a rejected promise). -/
inductive FetchResult where
  | response (ok : Bool) (text : String)
  | networkError

/-- The reactive state of the view that `updateContent` writes. -/
structure ViewState where
  item : Option Node
  markdownContent : String

/-- Did the fetch fail to produce an ok response?  Both a network error and
a non-ok status end in the `catch` block of the source: a non-ok response
is turned into a thrown `Error('File not found')` there. -/
def fetchFailed : FetchResult → Bool
  | .response ok _ => !ok
  | .networkError => true

/-- `updateContent` from `DocView.vue`, with the asynchronous fetch passed
in as its eventual outcome and `marked.parse` as the black box `parse`:
resolve the route's segments, store the resolved item, and for a file node
render the fetched markdown, falling back to the inline error placeholder
when the fetch fails; for a directory clear the content; otherwise leave
the content as it was. -/
def updateContent (docs : Node) (segs : List String) (fetch : FetchResult)
    (parse : String → String) (st : ViewState) : ViewState :=
  let item := findItem segs docs
  match item with
  | some n =>
    if n.type = "file" then
      match fetch with
      | .response true text => { item := item, markdownContent := parse text }
      | .response false _ =>
          { item := item, markdownContent := "<p>Error loading file</p>" }
      | .networkError =>
          { item := item, markdownContent := "<p>Error loading file</p>" }
    else if n.type = "directory" then
      { item := item, markdownContent := "" }
    else
      { item := item, markdownContent := st.markdownContent }
  | none => { item := none, markdownContent := st.markdownContent }

/-- The synchronous prefix of `updateContent`, up to its `await`: the
resolved item is stored; for a file node a fetch is started whose eventual
resolution runs `updateContentCompletion`. -/
def updateContentSync (docs : Node) (segs : List String) (st : ViewState) :
    ViewState :=
  { st with item := findItem segs docs }

/-- The continuation of `updateContent` after its fetch resolves: the result
is written to `markdownContent` unconditionally — the source keeps no token
connecting the fetch to the navigation that issued it, so a stale resolution
writes just like a fresh one. -/
def updateContentCompletion (fetch : FetchResult) (parse : String → String)
    (st : ViewState) : ViewState :=
  match fetch with
  | .response true text => { st with markdownContent := parse text }
  | .response false _ => { st with markdownContent := "<p>Error loading file</p>" }
  | .networkError => { st with markdownContent := "<p>Error loading file</p>" }

/-- `basePath` from `vite.config.ts` (and `routerBase` in the router):
`/learning/` in production, `/` locally. -/
def basePath (isProduction : Bool) : String :=
  if isProduction then "/learning/" else "/"

/-- The content-fetch URL of the first `updateContent` variant and of the
`website` copy: the template literal `` `/docs/${pathSegments.join('/')}` ``,
a fixed root-relative prefix with no environment base path. -/
def fetchUrl (segs : List String) : String :=
  "/docs/" ++ joinSlash segs

/-- The content-fetch URL of the second `updateContent` variant: the
template literal `` `${import.meta.env.BASE_URL}docs/${pathSegments.join('/')}` ``,
the configured base followed by `docs/` and the joined segments. -/
def fetchUrlBase (baseUrl : String) (segs : List String) : String :=
  baseUrl ++ "docs/" ++ joinSlash segs

/-- A concrete stand-in for the black-box `marked.parse`. -/
def demoParse (s : String) : String := "<p>" ++ s ++ "</p>"

/-- A two-file manifest used to exhibit the stale-fetch race. -/
def demoDocs : Node :=
  Node.mk "root" "directory"
    (some [Node.mk "a.md" "file" none, Node.mk "b.md" "file" none])

/-- A node whose `type` is one of the two manifest node types (the data
model's `Directory | File` enum). -/
def WellTyped (c : Node) : Prop := c.type = "directory" ∨ c.type = "file"

/-- A concrete total preorder on names, standing in for the black-box
`localeCompare` in witnesses: compare by length. -/
def cmpLen (a b : String) : Int := (a.length : Int) - (b.length : Int)

/-! ## Theorems -/

theorem nodup_of_nodupBy {l : List String} (h : nodupBy l = true) : l.Nodup :=
  of_decide_eq_true h

theorem forestNodup_cons_tail {n : Node} {rest : List Node}
    (h : forestNodup (n :: rest) = true) : forestNodup rest = true := by
  cases n with
  | mk nm ty ch =>
    cases ch with
    | none => simpa [forestNodup] using h
    | some cs =>
      simp only [forestNodup, Bool.and_eq_true] at h
      exact h.2

theorem forestNodup_cons_head {nm ty : String} {cs rest : List Node}
    (h : forestNodup (Node.mk nm ty (some cs) :: rest) = true) :
    nodupBy (cs.map Node.name) = true ∧ forestNodup cs = true := by
  simp only [forestNodup, Bool.and_eq_true] at h
  exact ⟨h.1.1, h.1.2⟩

theorem treeNodup_of_mem_forest {c : Node} :
    ∀ {cs : List Node}, c ∈ cs → forestNodup cs = true → treeNodup c = true := by
  intro cs
  induction cs with
  | nil => intro h; cases h
  | cons hd tl ih =>
    intro hmem hforest
    rcases List.mem_cons.mp hmem with heq | htl
    · subst heq
      cases c with
      | mk nm ty ch =>
        cases ch with
        | none => rfl
        | some ccs =>
          have h := forestNodup_cons_head hforest
          simp [treeNodup, h.1, h.2]
    · exact ih htl (forestNodup_cons_tail hforest)

theorem treeNodup_of_mem_children {t c : Node} (hmem : c ∈ t.childrenD)
    (h : treeNodup t = true) : treeNodup c = true := by
  cases t with
  | mk nm ty ch =>
    cases ch with
    | none => simp [Node.childrenD, Node.children] at hmem
    | some cs =>
      simp only [Node.childrenD, Node.children, Option.getD] at hmem
      simp only [treeNodup, Bool.and_eq_true] at h
      exact treeNodup_of_mem_forest hmem h.2

theorem find?_eq_of_nodup_names {cs : List Node} {c : Node} {s : String}
    (hnodup : (cs.map Node.name).Nodup)
    (hmem : c ∈ cs) (hname : c.name = s) :
    cs.find? (fun x => x.name == s) = some c := by
  induction cs with
  | nil => cases hmem
  | cons hd tl ih =>
    have hcons : hd.name ∉ tl.map Node.name ∧ (tl.map Node.name).Nodup :=
      List.nodup_cons.mp (by simpa using hnodup)
    rcases List.mem_cons.mp hmem with heq | htl
    · subst heq
      simp [List.find?, hname]
    · have hsname : s ∈ tl.map Node.name := List.mem_map.mpr ⟨c, htl, hname⟩
      have hhd : (hd.name == s) = false := by
        cases h : (hd.name == s) with
        | false => rfl
        | true =>
          have : hd.name ∈ tl.map Node.name := by
            rw [eq_of_beq h]; exact hsname
          exact absurd this hcons.1
      rw [List.find?, hhd]
      exact ih hcons.2 htl

theorem find?_children_eq {t c : Node} {s : String}
    (hnodup : treeNodup t = true) (hmem : c ∈ t.childrenD) (hname : c.name = s) :
    t.children.bind (List.find? (fun x => x.name == s)) = some c := by
  cases t with
  | mk nm ty ch =>
    cases ch with
    | none => simp [Node.childrenD, Node.children] at hmem
    | some cs =>
      simp only [Node.childrenD, Node.children, Option.getD] at hmem
      simp only [treeNodup, Bool.and_eq_true] at hnodup
      simp only [Node.children, Option.bind]
      exact find?_eq_of_nodup_names (nodup_of_nodupBy hnodup.1) hmem hname

/-- Claim C1: for every manifest tree with unique sibling names and every
sequence of path segments that is a valid root-to-node walk, `findItem`
returns the exact node reached by following the segments child-by-child;
in particular the empty segment sequence resolves to the root itself. -/
theorem findItem_resolves_walk (t r : Node) (p : List String)
    (hnodup : treeNodup t = true) (hw : Walk t p r) :
    findItem p t = some r ∧ findItem [] t = some t := by
  refine ⟨?_, rfl⟩
  induction hw with
  | nil t => rfl
  | cons hmem hname hw ih =>
    rename_i t c r s p
    have hfind := find?_children_eq (t := t) hnodup hmem hname
    have hc : treeNodup c = true := treeNodup_of_mem_children hmem hnodup
    simp only [findItem, hfind]
    exact ih hc

/-- Witness for C1 on the spec's scenario manifest: resolving
`["js", "intro.md"]` returns the `intro.md` file node. -/
theorem findItem_resolves_walk_witness :
    findItem ["js", "intro.md"]
        (Node.mk "root" "directory"
          (some [Node.mk "js" "directory"
            (some [Node.mk "intro.md" "file" none])])) =
      some (Node.mk "intro.md" "file" none) := by
  have h := findItem_resolves_walk
    (Node.mk "root" "directory"
      (some [Node.mk "js" "directory"
        (some [Node.mk "intro.md" "file" none])]))
    (Node.mk "intro.md" "file" none)
    ["js", "intro.md"]
    (by simp [treeNodup, forestNodup, nodupBy])
    (Walk.cons (c := Node.mk "js" "directory"
        (some [Node.mk "intro.md" "file" none]))
      (by simp [Node.childrenD, Node.children])
      rfl
      (Walk.cons (c := Node.mk "intro.md" "file" none)
        (by simp [Node.childrenD, Node.children])
        rfl
        (Walk.nil _)))
  exact h.1

/-- Claim C2: for every manifest tree and segment sequence, `findItem`
yields the distinguished not-found outcome `none` exactly when some step
has no matching child; being a total Lean function, it never throws. -/
theorem findItem_none_iff_fails (t : Node) (segs : List String) :
    findItem segs t = none ↔ ResolutionFails t segs := by
  induction segs generalizing t with
  | nil =>
    constructor
    · intro h; simp [findItem] at h
    · intro h; cases h
  | cons s rest ih =>
    cases hch : t.children with
    | none =>
      constructor
      · intro _
        exact ResolutionFails.here (by simp [Node.childrenD, hch])
      · intro _
        simp [findItem, hch]
    | some cs =>
      have hcd : t.childrenD = cs := by simp [Node.childrenD, hch]
      cases hfind : cs.find? (fun x => x.name == s) with
      | none =>
        have hall : ∀ c ∈ t.childrenD, c.name ≠ s := by
          rw [hcd]
          intro c hc heq
          exact (List.find?_eq_none.mp hfind c hc) (by simp [heq])
        constructor
        · intro _; exact ResolutionFails.here hall
        · intro _; simp [findItem, hch, hfind]
      | some c =>
        have hstep : t.children.bind (List.find? (fun x => x.name == s)) = some c := by
          simp [hch, hfind]
        have hfi : findItem (s :: rest) t = findItem rest c := by
          simp [findItem, hstep]
        rw [hfi, ih]
        constructor
        · intro h; exact ResolutionFails.there hstep h
        · intro h
          cases h with
          | here hno =>
            have hname : (c.name == s) = true := by
              have := List.find?_some hfind
              simpa using this
            have hmem : c ∈ cs := List.mem_of_find?_eq_some hfind
            exact absurd (eq_of_beq hname) (hno c (hcd ▸ hmem))
          | there hstep2 h2 =>
            rw [hstep] at hstep2
            cases hstep2
            exact h2

theorem findItem_append (p q : List String) (t : Node) :
    findItem (p ++ q) t = (findItem p t).bind (findItem q) := by
  induction p generalizing t with
  | nil => simp [findItem]
  | cons s rest ih =>
    cases hstep : t.children.bind (List.find? (fun x => x.name == s)) with
    | none => simp [findItem, hstep]
    | some c => simp [findItem, hstep, ih]

/-- Claim C10: resolving a path whose segments continue past a file node
(a node with no children key) yields `none` rather than an error: the
optional chaining on `children` makes the lookup total, so descending
"through" a file is just the not-found outcome. -/
theorem findItem_past_file (t f : Node) (p q : List String)
    (hp : findItem p t = some f) (hleaf : f.children = none) (hq : q ≠ []) :
    findItem (p ++ q) t = none := by
  rw [findItem_append, hp]
  cases q with
  | nil => exact absurd rfl hq
  | cons s rest => simp [findItem, hleaf]

/-- Witness for C10: on the scenario manifest, continuing past the file
`intro.md` with a further segment resolves to `none`. -/
theorem findItem_past_file_witness :
    findItem (["js", "intro.md"] ++ ["deeper"])
        (Node.mk "root" "directory"
          (some [Node.mk "js" "directory"
            (some [Node.mk "intro.md" "file" none])])) = none := by
  refine findItem_past_file _ (Node.mk "intro.md" "file" none) _ _ ?_ rfl (by simp)
  rfl

theorem pairwise_orderedInsert {α : Type} (r : α → α → Prop) [DecidableRel r]
    (P : α → Prop)
    (htot : ∀ a b, P a → P b → r a b ∨ r b a)
    (htrans : ∀ a b c, P a → P b → P c → r a b → r b c → r a c)
    (a : α) (l : List α) (ha : P a) (hl : ∀ x ∈ l, P x)
    (hp : l.Pairwise r) : (l.orderedInsert r a).Pairwise r := by
  induction l with
  | nil => simp
  | cons b t ih =>
    simp only [List.orderedInsert]
    by_cases hab : r a b
    · rw [if_pos hab]
      refine List.pairwise_cons.mpr ⟨?_, hp⟩
      intro x hx
      rcases List.mem_cons.mp hx with rfl | hxt
      · exact hab
      · exact htrans a b x ha (hl b (List.mem_cons_self b t))
          (hl x (List.mem_cons_of_mem b hxt)) hab
          ((List.pairwise_cons.mp hp).1 x hxt)
    · rw [if_neg hab]
      have hba : r b a :=
        (htot a b ha (hl b (List.mem_cons_self b t))).resolve_left hab
      refine List.pairwise_cons.mpr ⟨?_, ?_⟩
      · intro x hx
        rcases (List.mem_orderedInsert r).mp hx with rfl | hxt
        · exact hba
        · exact (List.pairwise_cons.mp hp).1 x hxt
      · exact ih (fun x hx => hl x (List.mem_cons_of_mem b hx))
          (List.pairwise_cons.mp hp).2

theorem pairwise_insertionSort {α : Type} (r : α → α → Prop) [DecidableRel r]
    (P : α → Prop)
    (htot : ∀ a b, P a → P b → r a b ∨ r b a)
    (htrans : ∀ a b c, P a → P b → P c → r a b → r b c → r a c)
    (l : List α) (hl : ∀ x ∈ l, P x) : (l.insertionSort r).Pairwise r := by
  induction l with
  | nil => simp
  | cons a t ih =>
    simp only [List.insertionSort]
    exact pairwise_orderedInsert r P htot htrans a _
      (hl a (List.mem_cons_self a t))
      (fun x hx => hl x (List.mem_cons_of_mem a ((List.mem_insertionSort r).mp hx)))
      (ih (fun x hx => hl x (List.mem_cons_of_mem a hx)))

theorem childCompare_total (cmp : String → String → Int)
    (htot : ∀ x y, cmp x y ≤ 0 ∨ cmp y x ≤ 0) (a b : Node)
    (ha : WellTyped a) (hb : WellTyped b) :
    childCompare cmp a b ≤ 0 ∨ childCompare cmp b a ≤ 0 := by
  rcases ha with ha | ha <;> rcases hb with hb | hb <;>
    simp [childCompare, ha, hb] <;> exact htot _ _

theorem childCompare_trans (cmp : String → String → Int)
    (htrans : ∀ x y z, cmp x y ≤ 0 → cmp y z ≤ 0 → cmp x z ≤ 0)
    (a b c : Node) (ha : WellTyped a) (hb : WellTyped b) (hc : WellTyped c)
    (hab : childCompare cmp a b ≤ 0) (hbc : childCompare cmp b c ≤ 0) :
    childCompare cmp a c ≤ 0 := by
  rcases ha with ha | ha <;> rcases hb with hb | hb <;> rcases hc with hc | hc <;>
    simp [childCompare, ha, hb, hc] at * <;>
    exact htrans _ _ _ hab hbc

theorem pairwise_jsSortBy (cmp : String → String → Int)
    (htot : ∀ x y, cmp x y ≤ 0 ∨ cmp y x ≤ 0)
    (htrans : ∀ x y z, cmp x y ≤ 0 → cmp y z ≤ 0 → cmp x z ≤ 0)
    (cs : List Node) (hwt : ∀ c ∈ cs, WellTyped c) :
    (jsSortBy cmp cs).Pairwise (fun a b => childCompare cmp a b ≤ 0) :=
  pairwise_insertionSort _ WellTyped
    (fun a b hpa hpb => childCompare_total cmp htot a b hpa hpb)
    (fun a b c hpa hpb hpc => childCompare_trans cmp htrans a b c hpa hpb hpc)
    cs hwt

/-- Claim C3: for every directory node whose children carry the manifest
node types, the sorted children place every directory-typed child before
every file-typed child, and within each type group the names appear in
(locale-aware) lexicographic order by `cmp`; in particular the siblings
`Zebra` (directory) and `apple.md` (file) sort as `[Zebra, apple.md]`. -/
theorem sortedChildren_order (cmp : String → String → Int)
    (htot : ∀ x y, cmp x y ≤ 0 ∨ cmp y x ≤ 0)
    (htrans : ∀ x y z, cmp x y ≤ 0 → cmp y z ≤ 0 → cmp x z ≤ 0)
    (nm ty : String) (cs : List Node)
    (hwt : ∀ c ∈ cs, WellTyped c) :
    (sortedChildren cmp (some (Node.mk nm ty (some cs)))).Pairwise
        (fun a b => ¬(a.type = "file" ∧ b.type = "directory")) ∧
    ((sortedChildren cmp (some (Node.mk nm ty (some cs)))).filter
        (fun c => c.type == "directory")).Pairwise
        (fun a b => cmp a.name b.name ≤ 0) ∧
    ((sortedChildren cmp (some (Node.mk nm ty (some cs)))).filter
        (fun c => c.type == "file")).Pairwise
        (fun a b => cmp a.name b.name ≤ 0) ∧
    sortedChildren cmp (some (Node.mk "d" "directory"
        (some [Node.mk "apple.md" "file" none,
               Node.mk "Zebra" "directory" (some [])]))) =
      [Node.mk "Zebra" "directory" (some []),
       Node.mk "apple.md" "file" none] ∧
    sortedChildren cmp (some (Node.mk "d" "directory"
        (some [Node.mk "Zebra" "directory" (some []),
               Node.mk "apple.md" "file" none]))) =
      [Node.mk "Zebra" "directory" (some []),
       Node.mk "apple.md" "file" none] := by
  have hsc : sortedChildren cmp (some (Node.mk nm ty (some cs))) = jsSortBy cmp cs := rfl
  have hpw := pairwise_jsSortBy cmp htot htrans cs hwt
  refine ⟨?_, ?_, ?_, ?_, ?_⟩
  · rw [hsc]
    refine hpw.imp ?_
    intro a b hr
    rintro ⟨hfa, hdb⟩
    simp [childCompare, hfa, hdb] at hr
  · rw [hsc]
    have hf : ((jsSortBy cmp cs).filter (fun c => c.type == "directory")).Pairwise
        (fun a b => childCompare cmp a b ≤ 0) :=
      List.Pairwise.sublist (List.filter_sublist _) hpw
    refine List.Pairwise.imp_of_mem ?_ hf
    intro a b hma hmb hr
    have hta : a.type = "directory" := by
      have := (List.mem_filter.mp hma).2
      exact eq_of_beq (by simpa using this)
    have htb : b.type = "directory" := by
      have := (List.mem_filter.mp hmb).2
      exact eq_of_beq (by simpa using this)
    simpa [childCompare, hta, htb] using hr
  · rw [hsc]
    have hf : ((jsSortBy cmp cs).filter (fun c => c.type == "file")).Pairwise
        (fun a b => childCompare cmp a b ≤ 0) :=
      List.Pairwise.sublist (List.filter_sublist _) hpw
    refine List.Pairwise.imp_of_mem ?_ hf
    intro a b hma hmb hr
    have hta : a.type = "file" := by
      have := (List.mem_filter.mp hma).2
      exact eq_of_beq (by simpa using this)
    have htb : b.type = "file" := by
      have := (List.mem_filter.mp hmb).2
      exact eq_of_beq (by simpa using this)
    simpa [childCompare, hta, htb] using hr
  · simp [sortedChildren, jsSortBy, List.insertionSort, List.orderedInsert,
      childCompare, Node.type, Node.name, Node.children]
  · simp [sortedChildren, jsSortBy, List.insertionSort, List.orderedInsert,
      childCompare, Node.type, Node.name, Node.children]

/-- Witness for C3 at a concrete length-based comparator and the
Zebra/apple sibling pair. -/
theorem sortedChildren_order_witness :
    (sortedChildren cmpLen
        (some (Node.mk "root" "directory"
          (some [Node.mk "apple.md" "file" none,
                 Node.mk "Zebra" "directory" (some [])])))).Pairwise
      (fun a b => ¬(a.type = "file" ∧ b.type = "directory")) :=
  (sortedChildren_order cmpLen
    (by intro x y; unfold cmpLen; omega)
    (by intro x y z h1 h2; unfold cmpLen at *; omega)
    "root" "directory"
    [Node.mk "apple.md" "file" none, Node.mk "Zebra" "directory" (some [])]
    (by
      intro c hc
      rcases List.mem_cons.mp hc with rfl | hc
      · right; rfl
      · rcases List.mem_cons.mp hc with rfl | hc
        · left; rfl
        · cases hc)).1

/-- Claim C9: the directory view's sort is idempotent: sorting the node's
already-sorted children yields the same order as sorting once. -/
theorem sortedChildren_idempotent (cmp : String → String → Int)
    (htot : ∀ x y, cmp x y ≤ 0 ∨ cmp y x ≤ 0)
    (htrans : ∀ x y z, cmp x y ≤ 0 → cmp y z ≤ 0 → cmp x z ≤ 0)
    (nm ty nm2 ty2 : String) (cs : List Node)
    (hwt : ∀ c ∈ cs, WellTyped c) :
    sortedChildren cmp (some (Node.mk nm2 ty2
        (some (sortedChildren cmp (some (Node.mk nm ty (some cs))))))) =
      sortedChildren cmp (some (Node.mk nm ty (some cs))) := by
  have hpw := pairwise_jsSortBy cmp htot htrans cs hwt
  show jsSortBy cmp (jsSortBy cmp cs) = jsSortBy cmp cs
  exact List.Sorted.insertionSort_eq hpw

/-- Witness for C9 at a concrete length-based comparator. -/
theorem sortedChildren_idempotent_witness :
    sortedChildren cmpLen
        (some (Node.mk "d" "directory"
          (some (sortedChildren cmpLen
            (some (Node.mk "d" "directory"
              (some [Node.mk "apple.md" "file" none,
                     Node.mk "Zebra" "directory" (some [])]))))))) =
      sortedChildren cmpLen
        (some (Node.mk "d" "directory"
          (some [Node.mk "apple.md" "file" none,
                 Node.mk "Zebra" "directory" (some [])]))) :=
  sortedChildren_idempotent cmpLen
    (by intro x y; unfold cmpLen; omega)
    (by intro x y z h1 h2; unfold cmpLen at *; omega)
    "d" "directory" "d" "directory"
    [Node.mk "apple.md" "file" none, Node.mk "Zebra" "directory" (some [])]
    (by
      intro c hc
      rcases List.mem_cons.mp hc with rfl | hc
      · right; rfl
      · rcases List.mem_cons.mp hc with rfl | hc
        · left; rfl
        · cases hc)

/-- Claim C8: no viewer operation mutates the manifest: resolution and
breadcrumb derivation only read their inputs, and the sort runs on the
spread copy, so each state-passing operation returns the manifest value
unchanged and the sorted view is merely a rearrangement (permutation) of
the node's untouched children. -/
theorem viewer_leaves_manifest_unchanged (cmp : String → String → Int)
    (item : Option Node) (segs : List String) (tree : Node) :
    (sortedChildrenSt cmp item).2 = item ∧
    (sortedChildrenSt cmp item).1 = sortedChildren cmp item ∧
    (sortedChildren cmp item).Perm (itemChildrenD item) ∧
    (findItemSt segs tree).2 = tree ∧
    (breadcrumbsSt segs).2 = segs := by
  refine ⟨?_, ?_, ?_, rfl, rfl⟩
  · cases item with
    | none => rfl
    | some n =>
      cases n with
      | mk nm ty ch =>
        cases ch with
        | none => rfl
        | some cs => rfl
  · cases item with
    | none => rfl
    | some n =>
      cases n with
      | mk nm ty ch =>
        cases ch with
        | none => rfl
        | some cs => rfl
  · cases item with
    | none => exact List.Perm.refl _
    | some n =>
      cases n with
      | mk nm ty ch =>
        cases ch with
        | none => exact List.Perm.refl _
        | some cs =>
          show List.Perm (jsSortBy cmp cs) cs
          exact List.perm_insertionSort _ cs

theorem joinSlash_cons (s : String) (l : List String) (hl : l ≠ []) :
    joinSlash (s :: l) = s ++ "/" ++ joinSlash l := by
  cases l with
  | nil => exact absurd rfl hl
  | cons b t => rfl

theorem breadcrumbsLoop_length (segs : List String) (cur : String) :
    (breadcrumbsLoop segs cur).length = segs.length := by
  induction segs generalizing cur with
  | nil => rfl
  | cons s rest ih => simp [breadcrumbsLoop, ih]

theorem breadcrumbsLoop_getElem (segs : List String) (cur : String) (i : Nat)
    (hi : i < segs.length) :
    (breadcrumbsLoop segs cur)[i]? =
      some ⟨segs[i], cur ++ "/" ++ joinSlash (segs.take (i + 1))⟩ := by
  induction segs generalizing cur i with
  | nil => simp at hi
  | cons s rest ih =>
    cases i with
    | zero =>
      simp [breadcrumbsLoop, joinSlash]
    | succ j =>
      have hj : j < rest.length := by simpa using hi
      have htk : rest.take (j + 1) ≠ [] := by
        cases rest with
        | nil => simp at hj
        | cons r0 rt => simp [List.take_succ_cons]
      simp only [breadcrumbsLoop, List.getElem?_cons_succ]
      rw [ih (cur ++ "/" ++ s) j hj]
      rw [List.getElem_cons_succ, List.take_succ_cons, joinSlash_cons s _ htk]
      simp [String.append_assoc]

/-- Claim C4: for path segments `[s1, ..., sn]` the breadcrumb list has
exactly `n` entries; entry `i` is labelled `s(i+1)` with target path the
accumulated slash-joined prefix `/s1/.../s(i+1)`; the root Home crumb is
not one of the accumulated entries; and a crumb renders as a navigable
link exactly when it is not the last entry. -/
theorem breadcrumbs_spec (segs : List String) :
    (breadcrumbs segs).length = segs.length ∧
    (∀ i, (hi : i < segs.length) →
      (breadcrumbs segs)[i]? =
        some ⟨segs[i], "/" ++ joinSlash (segs.take (i + 1))⟩) ∧
    (∀ i, i < segs.length →
      (crumbNavigable (breadcrumbs segs) i = true ↔ i + 1 < segs.length)) := by
  refine ⟨breadcrumbsLoop_length segs "", ?_, ?_⟩
  · intro i hi
    simp only [breadcrumbs]
    rw [breadcrumbsLoop_getElem segs "" i hi, String.empty_append]
  · intro i hi
    have hlen : (breadcrumbs segs).length = segs.length :=
      breadcrumbsLoop_length segs ""
    unfold crumbNavigable
    rw [hlen]
    constructor
    · intro h
      have := of_decide_eq_true h
      omega
    · intro h
      apply decide_eq_true
      omega

/-- Witness for C4 on the path `[a, b, c]`: three crumbs, the middle one
labelled `b` targeting `/a/b`, and the last one non-navigable. -/
theorem breadcrumbs_spec_witness :
    (breadcrumbs ["a", "b", "c"]).length = 3 ∧
    (breadcrumbs ["a", "b", "c"])[1]? = some ⟨"b", "/a/b"⟩ ∧
    crumbNavigable (breadcrumbs ["a", "b", "c"]) 2 = false := by
  have h := breadcrumbs_spec ["a", "b", "c"]
  refine ⟨h.1.trans rfl, ?_, ?_⟩
  · have h2 := h.2.1 1 (by decide)
    rw [h2]
    rfl
  · have h3 := h.2.2 2 (by decide)
    cases hb : crumbNavigable (breadcrumbs ["a", "b", "c"]) 2 with
    | false => rfl
    | true =>
      exact absurd (h3.mp hb) (by decide)

/-- Claim C5: when the resolved item is a file node and the fetch fails
(network error or non-ok response status), `updateContent` catches the
failure and sets the displayed content to the human-readable inline
placeholder; being a total function of its inputs, it lets no exception
or unhandled rejection escape. -/
theorem updateContent_fetch_failure (docs : Node) (segs : List String)
    (fetch : FetchResult) (parse : String → String) (st : ViewState)
    (n : Node) (hres : findItem segs docs = some n) (hfile : n.type = "file")
    (hfail : fetchFailed fetch = true) :
    (updateContent docs segs fetch parse st).markdownContent =
      "<p>Error loading file</p>" := by
  cases fetch with
  | response ok text =>
    cases ok with
    | true => simp [fetchFailed] at hfail
    | false => simp [updateContent, hres, hfile]
  | networkError => simp [updateContent, hres, hfile]

/-- Witness for C5: a network error while fetching `a.md` renders the
error placeholder. -/
theorem updateContent_fetch_failure_witness :
    (updateContent demoDocs ["a.md"] FetchResult.networkError demoParse
        { item := none, markdownContent := "" }).markdownContent =
      "<p>Error loading file</p>" :=
  updateContent_fetch_failure demoDocs ["a.md"] FetchResult.networkError demoParse
    { item := none, markdownContent := "" }
    (Node.mk "a.md" "file" none) rfl rfl rfl

/-- Claim C6 fails on the code: navigating to file `a.md`, then to `b.md`
before `a`'s fetch resolves, with `b`'s fetch resolving first and `a`'s
stale fetch resolving after it, the stale completion overwrites the
displayed content with `a`'s markdown — the source keeps no token tying a
fetch to its navigation, so nothing is discarded. -/
theorem stale_fetch_overwrites :
    (updateContentCompletion (FetchResult.response true "content A") demoParse
      (updateContentCompletion (FetchResult.response true "content B") demoParse
        (updateContentSync demoDocs ["b.md"]
          (updateContentSync demoDocs ["a.md"]
            { item := none, markdownContent := "" })))).markdownContent =
        demoParse "content A" ∧
    demoParse "content A" ≠ demoParse "content B" := by
  constructor
  · rfl
  · decide

/-- Claim C7 fails on the first `updateContent` variant and on the
`website` copy: the configured production base is `/learning/`, and while
the second variant builds `BASE_URL ++ "docs/" ++ segments`, the first
fetches from the fixed `/docs/...` URL, so the environment-derived base
path is not consistently prepended. -/
theorem fetch_url_missing_base :
    basePath true = "/learning/" ∧
    fetchUrlBase (basePath true) ["js", "intro.md"] = "/learning/docs/js/intro.md" ∧
    fetchUrl ["js", "intro.md"] = "/docs/js/intro.md" ∧
    fetchUrl ["js", "intro.md"] ≠
      basePath true ++ "docs/" ++ joinSlash ["js", "intro.md"] := by
  refine ⟨rfl, rfl, rfl, by decide⟩

end DocViewer
